import Mathlib

/-!
Verification development for the process-algebra verifier.

The definitions below are a shallow embedding of the TypeScript sources:
process terms (`src/core/terms/*.ts`, tests' `MockProcessTerm`), the
labelled-transition-system infrastructure (`src/core/lts.ts`), the SOS
engine with its CCS rules (`src/semantics/sos-engine.ts`), the CSP rules
(`src/semantics/csp-sos-rules.ts`) and the `EquivalenceChecker`
(`src/verification/equivalence-checker.ts`).

Conventions of the embedding:
- JavaScript `Set` objects of freshly constructed `Transition` instances
  use reference equality, so every `add` appends; such sets are embedded
  as lists in insertion order.
- JavaScript `Set<string>` and `Map<string, _>` use value equality on the
  keys and preserve insertion order; they are embedded as lists (with
  insert-if-absent) and insertion-ordered association lists.
- Methods that can run forever in TypeScript (recursive-term unfolding
  inside `derive`) take a fuel argument counting the allowed unfoldings
  and return `Option`, with `none` standing for divergence.
-/

/-- A transition of the LTS, from `src/core/lts.ts` (`class Transition`):
a `(source, action, target)` triple of strings. -/
structure Transition where
  source : String
  action : String
  target : String
deriving DecidableEq, Repr

/-- The closed world of `ProcessTerm` implementations appearing in the
repository: `StopTerm`, `PrefixTerm`, `ChoiceTerm`, `ParallelTerm`,
`RecursiveTerm` (from `src/core/terms/*.ts`) and the tests'
`MockProcessTerm(id)` (from `tests/core/prefix-term.test.ts`), which acts
as a named variable. -/
inductive ProcessTerm where
  | stop : ProcessTerm
  | prefixTerm (action : String) (continuation : ProcessTerm) : ProcessTerm
  | choiceTerm (left right : ProcessTerm) : ProcessTerm
  | parallelTerm (left right : ProcessTerm) : ProcessTerm
  | recursiveTerm (v : String) (definition : ProcessTerm) : ProcessTerm
  | mockTerm (id : String) : ProcessTerm
deriving DecidableEq, Repr

open ProcessTerm

/-- `substitute(variable, replacement)`, method by method from the term
classes: `StopTerm` returns itself, `PrefixTerm`/`ChoiceTerm`/
`ParallelTerm` recurse into subterms, `RecursiveTerm` returns the
replacement when the variable matches its bound variable and otherwise
recurses into the definition, and `MockProcessTerm` returns the
replacement when its id matches the variable. -/
def substitute : ProcessTerm → String → ProcessTerm → ProcessTerm
  | stop, _, _ => stop
  | prefixTerm a k, v, r => prefixTerm a (substitute k v r)
  | choiceTerm l rt, v, r => choiceTerm (substitute l v r) (substitute rt v r)
  | parallelTerm l rt, v, r => parallelTerm (substitute l v r) (substitute rt v r)
  | recursiveTerm x d, v, r =>
      if v = x then r else recursiveTerm x (substitute d v r)
  | mockTerm id, v, r => if id = v then r else mockTerm id

/-- `RecursiveTerm.unfold()`: substitute the bound variable by the whole
recursive term inside the definition. -/
def unfoldRec (x : String) (d : ProcessTerm) : ProcessTerm :=
  substitute d x (recursiveTerm x d)

/-- `ProcessTerm.derive()`, method by method: `StopTerm` and
`MockProcessTerm` yield no transitions, `PrefixTerm` yields the single
transition `initial --action--> next`, `ChoiceTerm` yields the union of
both branches (fresh objects, hence list concatenation), `ParallelTerm`'s
default derivation is the placeholder empty set, and `RecursiveTerm`
derives from its unfolding.  The fuel bounds the recursion depth of the
TypeScript call tree; `none` models a computation that needs more
recursion than the given budget (in particular an infinite one, such as
deriving `rec X. X`). -/
def derive : Nat → ProcessTerm → Option (List Transition)
  | 0, _ => none
  | _ + 1, stop => some []
  | _ + 1, mockTerm _ => some []
  | _ + 1, prefixTerm a _ => some [⟨"initial", a, "next"⟩]
  | n + 1, choiceTerm l r =>
      match derive n l, derive n r with
      | some lt, some rt => some (lt ++ rt)
      | _, _ => none
  | _ + 1, parallelTerm _ _ => some []
  | n + 1, recursiveTerm x d => derive n (unfoldRec x d)

example : derive 2 (recursiveTerm "X" (prefixTerm "a" (mockTerm "X")))
    = some [⟨"initial", "a", "next"⟩] := by rfl

example : derive 2 (choiceTerm (prefixTerm "a" stop) (prefixTerm "b" stop))
    = some [⟨"initial", "a", "next"⟩, ⟨"initial", "b", "next"⟩] := by rfl

/-! ## Transition relation (`src/core/lts.ts`, `DefaultTransitionRelation`)

The JavaScript `Map<State, Set<Transition>>` is embedded as an
insertion-ordered association list from states to lists of transitions.
Since `add` always constructs a fresh `Transition` object and a JavaScript
`Set` compares objects by reference, every `add` appends to the stored
set. -/

/-- Lookup in an insertion-ordered association list keyed by strings
(JavaScript `Map.get`). -/
def lookupStr {α : Type} : List (String × α) → String → Option α
  | [], _ => none
  | (s, x) :: rest, q => if s = q then some x else lookupStr rest q

/-- JavaScript `Map.set`: replace the value in place when the key is
present, append a new entry otherwise. -/
def setStr {α : Type} : List (String × α) → String → α → List (String × α)
  | [], q, x => [(q, x)]
  | (s, y) :: rest, q, x =>
      if s = q then (s, x) :: rest else (s, y) :: setStr rest q x

/-- The state of a `DefaultTransitionRelation`: its private
`transitions : Map<State, Set<Transition>>`. -/
abbrev TransitionRelation : Type := List (String × List Transition)

/-- `DefaultTransitionRelation.add(source, action, target)`: create a new
`Transition` object, fetch the source's set (or an empty one), add the
fresh object to it (reference equality: always appends) and store it
back. -/
def TransitionRelation.add (rel : TransitionRelation)
    (source action target : String) : TransitionRelation :=
  let transition : Transition := ⟨source, action, target⟩
  let sourceTransitions := (lookupStr rel source).getD []
  setStr rel source (sourceTransitions ++ [transition])

/-- `DefaultTransitionRelation.getTransitions(state)`: the stored set, or
the empty set for unknown states. -/
def TransitionRelation.getTransitions (rel : TransitionRelation)
    (state : String) : List Transition :=
  (lookupStr rel state).getD []

/-- `DefaultTransitionRelation.getTargetStates(source, action)`: filter
the outgoing transitions by action and keep the targets. -/
def TransitionRelation.getTargetStates (rel : TransitionRelation)
    (source action : String) : List String :=
  ((rel.getTransitions source).filter (fun t => t.action = action)).map
    (fun t => t.target)

/-! ## SOS engine (`src/semantics/sos-engine.ts`) -/

/-- `PrefixActionRule.canApply`: `term instanceof PrefixTerm`. -/
def isPrefixTerm : ProcessTerm → Bool
  | prefixTerm _ _ => true
  | _ => false

/-- `ChoiceRule.canApply`: `term instanceof ChoiceTerm`. -/
def isChoiceTerm : ProcessTerm → Bool
  | choiceTerm _ _ => true
  | _ => false

/-- `ParallelCompositionRule.canApply` and `CommunicationRule.canApply`:
`term instanceof ParallelTerm`. -/
def isParallelTerm : ProcessTerm → Bool
  | parallelTerm _ _ => true
  | _ => false

/-- `PrefixActionRule.deriveTransitions`: a single transition
`initial --action--> continuation` for a prefix term, the empty set for
anything else. -/
def prefixActionRuleDerive : ProcessTerm → List Transition
  | prefixTerm a _ => [⟨"initial", a, "continuation"⟩]
  | _ => []

/-- `ChoiceRule.deriveTransitions`: the union of both branches' `derive()`
sets (fresh objects, hence concatenation). -/
def choiceRuleDerive (fuel : Nat) : ProcessTerm → Option (List Transition)
  | choiceTerm l r =>
      match derive fuel l, derive fuel r with
      | some lt, some rt => some (lt ++ rt)
      | _, _ => none
  | _ => some []

/-- `ParallelCompositionRule.hasNestedChoice`: is the term a prefix term
whose continuation is a choice term? -/
def hasNestedChoice : ProcessTerm → Bool
  | prefixTerm _ (choiceTerm _ _) => true
  | _ => false

/-- `ParallelCompositionRule.deriveNestedTransitions`: for a prefix term
with a choice continuation, the prefix action (target `prefix-action`)
plus — on the left branch only — the first transition of each choice
subterm; every other term falls through to its default `derive()`. -/
def deriveNestedTransitions (fuel : Nat) (t : ProcessTerm)
    (isLeftBranch : Bool) : Option (List Transition) :=
  match t with
  | prefixTerm a (choiceTerm cl cr) =>
      let base : List Transition := [⟨"initial", a, "prefix-action"⟩]
      if isLeftBranch then
        match derive fuel cl, derive fuel cr with
        | some lt, some rt => some (base ++ lt.take 1 ++ rt.take 1)
        | _, _ => none
      else some base
  | _ => derive fuel t

/-- `ParallelCompositionRule.deriveTransitions`: relabel every left-branch
nested transition as `initial --action--> left-action`; relabel the
right-branch nested transitions as `initial --action--> right-action`
only when the left operand has no nested choice. -/
def parallelCompositionRuleDerive (fuel : Nat) :
    ProcessTerm → Option (List Transition)
  | parallelTerm l r =>
      match deriveNestedTransitions fuel l true,
            deriveNestedTransitions fuel r false with
      | some lts, some rts =>
          let left := lts.map
            (fun tr => (⟨"initial", tr.action, "left-action"⟩ : Transition))
          if hasNestedChoice l then some left
          else some (left ++ rts.map
            (fun tr => (⟨"initial", tr.action, "right-action"⟩ : Transition)))
      | _, _ => none
  | _ => some []

/-- `CommunicationRule.deriveTransitions`: the placeholder body returns
the empty set for every term. -/
def communicationRuleDerive : ProcessTerm → List Transition
  | _ => []

/-- The key `${source}-${action}-${target}` used by
`SOSEngine.computeTransitions` for deduplication. -/
def transitionKey (t : Transition) : String :=
  t.source ++ "-" ++ t.action ++ "-" ++ t.target

/-- JavaScript `Map.set` on the keyed transition map: keep the first
insertion position of a key, replace its value. -/
def insertKeyed : List (String × Transition) → String → Transition →
    List (String × Transition)
  | [], k, t => [(k, t)]
  | (k0, t0) :: rest, k, t =>
      if k0 = k then (k0, t) :: rest else (k0, t0) :: insertKeyed rest k t

/-- The deduplication loop of `SOSEngine.computeTransitions`: insert every
transition into the keyed map and read the values back in insertion
order. -/
def dedupeByKey (l : List Transition) : List Transition :=
  (l.foldl (fun m t => insertKeyed m (transitionKey t) t) []).map
    (fun p => p.2)

/-- `createDefaultCCSEngine().computeTransitions(term)`: apply the four
CCS rules in insertion order (`PrefixActionRule`, `ChoiceRule`,
`ParallelCompositionRule`, `CommunicationRule`) to the term when their
`canApply` holds, collect the transitions, and deduplicate by key. -/
def ccsComputeTransitions (fuel : Nat) (term : ProcessTerm) :
    Option (List Transition) :=
  let fromPrefix := if isPrefixTerm term then prefixActionRuleDerive term else []
  match (if isChoiceTerm term then choiceRuleDerive fuel term else some []),
        (if isParallelTerm term then parallelCompositionRuleDerive fuel term
         else some []) with
  | some fromChoice, some fromParallel =>
      let fromComm :=
        if isParallelTerm term then communicationRuleDerive term else []
      some (dedupeByKey (fromPrefix ++ fromChoice ++ fromParallel ++ fromComm))
  | _, _ => none

/-! ## CSP rules (`src/semantics/csp-sos-rules.ts`) -/

/-- `CSPSynchronizationRule.canSynchronize`: exact action match. -/
def canSynchronize (action1 action2 : String) : Bool := action1 = action2

/-- `CSPSynchronizationRule.synchronizedAction`: the code returns the
silent action `tau` for every synchronizing pair. -/
def synchronizedAction (_action1 _action2 : String) : String := "tau"

/-- `CSPSynchronizationRule.deriveTransitions`: for every pair of a left
and a right transition whose actions can synchronize, add a transition
`initial --synchronizedAction--> synchronized-action`. -/
def cspSynchronizationRuleDerive (fuel : Nat) :
    ProcessTerm → Option (List Transition)
  | parallelTerm l r =>
      match derive fuel l, derive fuel r with
      | some lts, some rts =>
          some (lts.flatMap (fun lt =>
            rts.filterMap (fun rt =>
              if canSynchronize lt.action rt.action then
                some (⟨"initial", synchronizedAction lt.action rt.action,
                  "synchronized-action"⟩ : Transition)
              else none)))
      | _, _ => none
  | _ => some []

/-! ## Equivalence checker (`src/verification/equivalence-checker.ts`)

`EquivalenceChecker` keys traces as dot-joined strings stored in
`Set<string>` objects (value equality, insertion order), so trace sets are
embedded as duplicate-free lists of strings in insertion order.  The
exploration re-derives the same unchanged term at every level; since
`derive` is pure we derive once and pass the resulting list down. -/

/-- `EquivalenceChecker.MAX_TRACE_DEPTH`: the private static depth bound,
hard-coded to 10. -/
def MAX_TRACE_DEPTH : Nat := 10

/-- The new trace string built in `exploreTracesWithDepthLimit`:
`currentTrace ? currentTrace + '.' + action : action`. -/
def newTrace (cur action : String) : String :=
  if cur = "" then action else cur ++ "." ++ action

/-- `Set<string>.add`: append the string unless it is already present. -/
def addTrace (traces : List String) (s : String) : List String :=
  if s ∈ traces then traces else traces ++ [s]

/-- The `for (const transition of transitions)` loop of
`exploreTracesWithDepthLimit`: explore each transition's extended trace in
order, threading the shared `traces` accumulator; every child receives the
same copy of the parent's visited set.  The child explorer is passed as a
function so that the loop is structurally recursive on the list. -/
def exploreFold (child : String → List String → List String → List String) :
    List Transition → String → List String → List String → List String
  | [], _, traces, _ => traces
  | t :: rest, cur, traces, visited =>
      exploreFold child rest cur (child (newTrace cur t.action) traces visited)
        visited

/-- `EquivalenceChecker.exploreTracesWithDepthLimit(term, currentTrace,
traces, visited, depth)` with the remaining budget
`MAX_TRACE_DEPTH - depth` as first argument: return at depth limit or on a
visited trace, otherwise record the current trace (when non-empty) and
explore every transition of the (unchanged) term one level deeper. -/
def exploreGo (ts : List Transition) :
    Nat → String → List String → List String → List String
  | 0, _, traces, _ => traces
  | r + 1, cur, traces, visited =>
      if cur ∈ visited then traces
      else
        exploreFold (fun c tr v => exploreGo ts r c tr v) ts cur
          (if cur = "" then traces else addTrace traces cur)
          (visited ++ [cur])
termination_by structural r => r

/-- `EquivalenceChecker.computeTraces(term)` given the term's derived
transitions: start from the empty trace, empty trace set and empty visited
set at depth 0. -/
def computeTracesFrom (ts : List Transition) : List String :=
  exploreGo ts MAX_TRACE_DEPTH "" [] []

/-- `EquivalenceChecker.computeTraces(term)`: derive the term (with the
given fuel) and explore. -/
def computeTraces (fuel : Nat) (term : ProcessTerm) : Option (List String) :=
  (derive fuel term).map computeTracesFrom

/-- JavaScript `trace.split('.')` on the underlying character list:
splitting on every dot, `''` splits to `['']`. -/
def splitDot : List Char → List (List Char)
  | [] => [[]]
  | c :: rest =>
      if c = '.' then [] :: splitDot rest
      else
        match splitDot rest with
        | [] => [[c]]
        | h :: t => (c :: h) :: t

/-- JavaScript `parts.join('.')` on character lists. -/
def joinDot : List (List Char) → List Char
  | [] => []
  | [x] => x
  | x :: y :: t => x ++ '.' :: joinDot (y :: t)

/-- `trace.split('.')` at the string level. -/
def splitDotStr (s : String) : List String := (splitDot s.data).map String.mk

/-- `parts.join('.')` at the string level. -/
def joinDotStr (l : List String) : String :=
  String.mk (joinDot (l.map String.data))

/-- `EquivalenceChecker.generateTracePrefixes(trace)`: the empty string
followed by the dot-joins of every non-empty initial segment of the
trace's dot-split. -/
def generateTracePrefixes (trace : String) : List String :=
  let actions := splitDotStr trace
  "" :: (List.range actions.length).map
    (fun i => joinDotStr (actions.take (i + 1)))

/-- `EquivalenceChecker.isTraceContained(trace, traceSet)`: some prefix of
the trace is in the set. -/
def isTraceContained (trace : String) (traceSet : List String) : Bool :=
  (generateTracePrefixes trace).any (fun p => decide (p ∈ traceSet))

/-- `EquivalenceChecker.traceSetsEqual(traces1, traces2)`: equal sizes and
every trace of the first set contained (via a prefix) in the second. -/
def traceSetsEqual (traces1 traces2 : List String) : Bool :=
  if traces1.length ≠ traces2.length then false
  else traces1.all (fun trace => isTraceContained trace traces2)

/-- `EquivalenceChecker.checkTraceEquivalence(term1, term2)`: compare the
computed trace sets. -/
def checkTraceEquivalence (fuel : Nat) (term1 term2 : ProcessTerm) :
    Option Bool :=
  match derive fuel term1, derive fuel term2 with
  | some l1, some l2 =>
      some (traceSetsEqual (computeTracesFrom l1) (computeTracesFrom l2))
  | _, _ => none

/-- `EquivalenceChecker.groupTransitionsByAction`, one map update:
append the transition to its action's set when the action is present,
append a new singleton entry otherwise. -/
def updateGroup : List (String × List Transition) → Transition →
    List (String × List Transition)
  | [], t => [(t.action, [t])]
  | (a, ts) :: rest, t =>
      if a = t.action then (a, ts ++ [t]) :: rest
      else (a, ts) :: updateGroup rest t

/-- `EquivalenceChecker.groupTransitionsByAction(transitions)`. -/
def groupTransitionsByAction (l : List Transition) :
    List (String × List Transition) :=
  l.foldl updateGroup []

/-- `EquivalenceChecker.advancedTransitionSetComparison(t1, t2)`: the two
action maps have the same size, and every action of the first map is
present in the second with a transition set of the same size. -/
def advancedTransitionSetComparison (l1 l2 : List Transition) : Bool :=
  let m1 := groupTransitionsByAction l1
  let m2 := groupTransitionsByAction l2
  if m1.length ≠ m2.length then false
  else m1.all (fun p =>
    match lookupStr m2 p.1 with
    | none => false
    | some ts2 => decide (p.2.length = ts2.length))

/-- `EquivalenceChecker.checkBisimulationEquivalence(term1, term2)`:
compare the two derived transition sets. -/
def checkBisimulationEquivalence (fuel : Nat) (term1 term2 : ProcessTerm) :
    Option Bool :=
  match derive fuel term1, derive fuel term2 with
  | some l1, some l2 => some (advancedTransitionSetComparison l1 l2)
  | _, _ => none

/-- `EquivalenceChecker.checkTestingEquivalence`: the placeholder
delegates to the trace check. -/
def checkTestingEquivalence (fuel : Nat) (term1 term2 : ProcessTerm) :
    Option Bool :=
  checkTraceEquivalence fuel term1 term2

/-- `EquivalenceChecker.checkFailuresEquivalence`: the placeholder
delegates to the trace check. -/
def checkFailuresEquivalence (fuel : Nat) (term1 term2 : ProcessTerm) :
    Option Bool :=
  checkTraceEquivalence fuel term1 term2

/-- The numeric values of the TypeScript `enum EquivalenceType`. -/
def EquivalenceType.TRACE : Nat := 0

/-- `EquivalenceType.BISIMULATION`. -/
def EquivalenceType.BISIMULATION : Nat := 1

/-- `EquivalenceType.TESTING`. -/
def EquivalenceType.TESTING : Nat := 2

/-- `EquivalenceType.FAILURES`. -/
def EquivalenceType.FAILURES : Nat := 3

/-- `EquivalenceChecker.checkEquivalence(term1, term2, type)`: dispatch on
the equivalence type (a TypeScript enum is a number, so any `Nat` can be
passed); the default branch throws `'Unsupported equivalence type'`,
embedded as `Except.error`. -/
def checkEquivalence (fuel : Nat) (term1 term2 : ProcessTerm)
    (eqType : Nat) : Option (Except String Bool) :=
  match eqType with
  | 0 => (checkTraceEquivalence fuel term1 term2).map Except.ok
  | 1 => (checkBisimulationEquivalence fuel term1 term2).map Except.ok
  | 2 => (checkTestingEquivalence fuel term1 term2).map Except.ok
  | 3 => (checkFailuresEquivalence fuel term1 term2).map Except.ok
  | _ => some (Except.error "Unsupported equivalence type")

example : computeTraces 2 (recursiveTerm "X" (prefixTerm "a" (mockTerm "X")))
    = some ["a", "a.a", "a.a.a", "a.a.a.a", "a.a.a.a.a", "a.a.a.a.a.a",
        "a.a.a.a.a.a.a", "a.a.a.a.a.a.a.a", "a.a.a.a.a.a.a.a.a"] := by rfl

/-! ## Helper lemmas on the association-list primitives -/

/-- Looking up the key just written by `setStr` returns the new value. -/
theorem lookupStr_setStr_self {α : Type} (rel : List (String × α))
    (q : String) (x : α) : lookupStr (setStr rel q x) q = some x := by
  induction rel with
  | nil => simp [setStr, lookupStr]
  | cons p rest ih =>
      obtain ⟨s, y⟩ := p
      by_cases h : s = q
      · simp [setStr, h, lookupStr]
      · simp [setStr, h, lookupStr, ih]

/-! ## Claim theorems: engine rules -/

/-- C1: on `Parallel(Prefix("a", Stop), Prefix("ā", Stop))` the default
CCS engine produces exactly the two interleaved visible transitions
labelled `a` and `ā`; the `CommunicationRule` placeholder contributes
nothing, so no silent-action (`tau`) synchronization transition is
derived, contrary to the specification. -/
theorem ccs_engine_complementary_prefixes_no_tau :
    ccsComputeTransitions 1
        (parallelTerm (prefixTerm "a" stop) (prefixTerm "ā" stop))
      = some [⟨"initial", "a", "left-action"⟩,
              ⟨"initial", "ā", "right-action"⟩]
    ∧ communicationRuleDerive
        (parallelTerm (prefixTerm "a" stop) (prefixTerm "ā" stop)) = []
    ∧ ((ccsComputeTransitions 1
          (parallelTerm (prefixTerm "a" stop) (prefixTerm "ā" stop))).getD
            []).all (fun t => t.action != "tau") = true := by
  exact ⟨rfl, rfl, rfl⟩

/-- C2: on `Parallel(Prefix("a", Stop), Prefix("a", Stop))` the CSP
synchronization rule derives a single synchronized transition, but its
label is the silent action `tau` rather than the common visible action
`a`, contrary to the specification. -/
theorem csp_synchronization_labels_tau :
    cspSynchronizationRuleDerive 1
        (parallelTerm (prefixTerm "a" stop) (prefixTerm "a" stop))
      = some [⟨"initial", "tau", "synchronized-action"⟩]
    ∧ synchronizedAction "a" "a" = "tau"
    ∧ ((cspSynchronizationRuleDerive 1
          (parallelTerm (prefixTerm "a" stop) (prefixTerm "a" stop))).getD
            []).all (fun t => t.action != "a") = true := by
  exact ⟨rfl, rfl, rfl⟩

/-- C3 counterexample: for the parallel term whose left operand is the
prefix-with-choice `c.(a.Stop + b.Stop)` and whose right operand is
`d.Stop`, the right operand derives a `d`-transition, yet the CCS
parallel-composition rule derives no interleaving transition labelled
`d` — the right side is dropped because the left operand has a nested
choice. -/
theorem parallel_rule_drops_right_on_nested_choice :
    derive 1 (prefixTerm "d" stop) = some [⟨"initial", "d", "next"⟩]
    ∧ parallelCompositionRuleDerive 1
        (parallelTerm
          (prefixTerm "c" (choiceTerm (prefixTerm "a" stop)
            (prefixTerm "b" stop)))
          (prefixTerm "d" stop))
      = some [⟨"initial", "c", "left-action"⟩,
              ⟨"initial", "a", "left-action"⟩,
              ⟨"initial", "b", "left-action"⟩]
    ∧ ((parallelCompositionRuleDerive 1
          (parallelTerm
            (prefixTerm "c" (choiceTerm (prefixTerm "a" stop)
              (prefixTerm "b" stop)))
            (prefixTerm "d" stop))).getD []).all
        (fun t => t.action != "d") = true := by
  exact ⟨rfl, rfl, rfl⟩

/-! ## Claim theorems: transition relation -/

/-- C4 counterexample: adding the identical triple
`('S0', 'a', 'S1')` twice to an empty `DefaultTransitionRelation` does not
leave it in the state one `add` produces — `getTransitions('S0')` then
holds the triple twice (each `add` inserts a fresh object into a
reference-equality `Set`). -/
theorem transitionRelation_add_not_idempotent :
    TransitionRelation.getTransitions
        (TransitionRelation.add
          (TransitionRelation.add ([] : TransitionRelation) "S0" "a" "S1")
          "S0" "a" "S1") "S0"
      = [⟨"S0", "a", "S1"⟩, ⟨"S0", "a", "S1"⟩]
    ∧ TransitionRelation.getTransitions
        (TransitionRelation.add
          (TransitionRelation.add ([] : TransitionRelation) "S0" "a" "S1")
          "S0" "a" "S1") "S0"
      ≠ TransitionRelation.getTransitions
          (TransitionRelation.add ([] : TransitionRelation) "S0" "a" "S1")
          "S0" := by
  exact ⟨rfl, by decide⟩

/-- C4 (amended): `add` always appends a freshly created `Transition` to
the source's stored set, so re-adding an identical triple appends a second
copy and `getTransitions` reports the duplicate. -/
theorem transitionRelation_add_appends (rel : TransitionRelation)
    (source action target : String) :
    TransitionRelation.getTransitions
        (TransitionRelation.add rel source action target) source
      = TransitionRelation.getTransitions rel source
          ++ [⟨source, action, target⟩] := by
  simp [TransitionRelation.add, TransitionRelation.getTransitions,
    lookupStr_setStr_self]

/-! ## Claim theorems: recursive-term substitution -/

/-- C5: substituting a `RecursiveTerm`'s own bound variable replaces the
entire recursive term by the replacement, while substituting any other
variable rebuilds the recursive term with the same bound variable around
the substituted definition (the receiver itself is never modified: all
term operations are pure in this embedding). -/
theorem recursiveTerm_substitute_spec (x : String) (d : ProcessTerm)
    (y : String) (r : ProcessTerm) (h : y ≠ x) :
    substitute (recursiveTerm x d) x r = r
    ∧ substitute (recursiveTerm x d) y r
        = recursiveTerm x (substitute d y r) := by
  constructor
  · simp [substitute]
  · simp [substitute, h]

/-- C5 witness: the two substitution behaviours at
`rec X. a.MockProcessTerm(X)` with replacement `Stop` and outer variables
`X` and `Y`. -/
theorem recursiveTerm_substitute_spec_witness :
    substitute (recursiveTerm "X" (prefixTerm "a" (mockTerm "X"))) "X" stop
      = stop
    ∧ substitute (recursiveTerm "X" (prefixTerm "a" (mockTerm "X"))) "Y" stop
        = recursiveTerm "X"
            (substitute (prefixTerm "a" (mockTerm "X")) "Y" stop) :=
  recursiveTerm_substitute_spec "X" (prefixTerm "a" (mockTerm "X")) "Y" stop
    (by decide)

/-! ## Claim theorems: depth-bounded trace exploration -/

/-- C6: the depth bound of the trace exploration is the hard-coded private
constant `MAX_TRACE_DEPTH = 10` (no caller-supplied parameter exists);
within it, exploring the guarded recursive term `rec X. a.X` terminates
with exactly the trace family `a, a.a, ..., a^9`, every trace shorter than
the bound. -/
theorem guarded_recursion_trace_family :
    MAX_TRACE_DEPTH = 10
    ∧ computeTraces 2 (recursiveTerm "X" (prefixTerm "a" (mockTerm "X")))
      = some ["a", "a.a", "a.a.a", "a.a.a.a", "a.a.a.a.a", "a.a.a.a.a.a",
          "a.a.a.a.a.a.a", "a.a.a.a.a.a.a.a", "a.a.a.a.a.a.a.a.a"]
    ∧ ((computeTraces 2
          (recursiveTerm "X" (prefixTerm "a" (mockTerm "X")))).getD []).all
        (fun trace => decide ((splitDotStr trace).length ≤ MAX_TRACE_DEPTH))
      = true := by
  exact ⟨rfl, rfl, rfl⟩

/-! ## Claim theorems: equivalence-type dispatch -/

/-- C9: any equivalence-type number outside the four enum values `0..3`
makes `checkEquivalence` throw `'Unsupported equivalence type'`
immediately, for every pair of terms and every fuel. -/
theorem unsupported_equivalence_type_rejected (fuel : Nat)
    (term1 term2 : ProcessTerm) (eqType : Nat) (h : 4 ≤ eqType) :
    checkEquivalence fuel term1 term2 eqType
      = some (Except.error "Unsupported equivalence type") := by
  obtain ⟨m, rfl⟩ : ∃ m, eqType = m + 4 := ⟨eqType - 4, by omega⟩
  rfl

/-- C9 witness: equivalence type `7` is rejected on `Stop` vs `Stop`. -/
theorem unsupported_equivalence_type_rejected_witness :
    4 ≤ 7
    ∧ checkEquivalence 0 stop stop 7
        = some (Except.error "Unsupported equivalence type") :=
  ⟨by decide, unsupported_equivalence_type_rejected 0 stop stop 7 (by decide)⟩

/-- C10: the testing and failures branches of `checkEquivalence` are
extensionally the trace branch — both placeholders delegate to
`checkTraceEquivalence`. -/
theorem testing_failures_delegate_to_trace (fuel : Nat)
    (term1 term2 : ProcessTerm) :
    checkEquivalence fuel term1 term2 EquivalenceType.TESTING
        = checkEquivalence fuel term1 term2 EquivalenceType.TRACE
    ∧ checkEquivalence fuel term1 term2 EquivalenceType.FAILURES
        = checkEquivalence fuel term1 term2 EquivalenceType.TRACE :=
  ⟨rfl, rfl⟩

/-! ## Amended parallel-composition interleaving -/

/-- A term has a nested choice exactly when it is a prefix term whose
continuation is a choice term. -/
theorem hasNestedChoice_eq_true_iff (t : ProcessTerm) :
    hasNestedChoice t = true
      ↔ ∃ a cl cr, t = prefixTerm a (choiceTerm cl cr) := by
  cases t with
  | prefixTerm a k => cases k <;> simp [hasNestedChoice]
  | _ => simp [hasNestedChoice]

/-- Without a nested choice, `deriveNestedTransitions` is the default
derivation. -/
theorem deriveNested_eq_derive_of_not_nested (fuel : Nat) (t : ProcessTerm)
    (b : Bool) (h : hasNestedChoice t = false) :
    deriveNestedTransitions fuel t b = derive fuel t := by
  cases t with
  | prefixTerm a k =>
      cases k with
      | choiceTerm cl cr => simp [hasNestedChoice] at h
      | _ => rfl
  | _ => rfl

/-- C3 (amended): the CCS parallel-composition rule derives an
interleaving transition for every transition of the left operand; it
derives interleaving transitions for the right operand's transitions only
when the left operand is not a prefix term with a choice continuation —
in that nested-choice case the right operand's transitions are omitted. -/
theorem parallel_rule_interleaving_amended (fuel : Nat)
    (l r : ProcessTerm) (res lts rts : List Transition)
    (hres : parallelCompositionRuleDerive fuel (parallelTerm l r) = some res)
    (hl : derive fuel l = some lts) (hr : derive fuel r = some rts) :
    (∀ t ∈ lts,
      (⟨"initial", t.action, "left-action"⟩ : Transition) ∈ res)
    ∧ (hasNestedChoice l = false →
        ∀ t ∈ rts,
          (⟨"initial", t.action, "right-action"⟩ : Transition) ∈ res) := by
  rcases hdl : deriveNestedTransitions fuel l true with _ | lns
  · simp [parallelCompositionRuleDerive, hdl] at hres
  rcases hdr : deriveNestedTransitions fuel r false with _ | rns
  · simp [parallelCompositionRuleDerive, hdl, hdr] at hres
  simp only [parallelCompositionRuleDerive, hdl, hdr] at hres
  by_cases hnl : hasNestedChoice l = true
  · -- nested-choice left operand: the right side is dropped
    obtain ⟨a, cl, cr, rfl⟩ := (hasNestedChoice_eq_true_iff l).mp hnl
    simp only [hnl, if_true, Option.some_inj] at hres
    subst hres
    cases fuel with
    | zero => simp [derive] at hl
    | succ n =>
        simp only [derive, Option.some_inj] at hl
        subst hl
        refine ⟨?_, ?_⟩
        · intro t ht
          simp only [List.mem_singleton] at ht
          subst ht
          rcases hcl : derive (n + 1) cl with _ | clts <;>
            rcases hcr : derive (n + 1) cr with _ | crts <;>
              simp [deriveNestedTransitions, hcl, hcr] at hdl
          · subst hdl
            simp [List.mem_map]
        · intro hfalse
          rw [hnl] at hfalse
          exact absurd hfalse (by simp)
  · -- no nested choice on the left: both sides interleave
    have hnl' : hasNestedChoice l = false := by
      cases h : hasNestedChoice l
      · rfl
      · exact absurd h hnl
    rw [deriveNested_eq_derive_of_not_nested fuel l true hnl', hl] at hdl
    have hlns : lns = lts := by injection hdl with h; exact h.symm
    subst hlns
    simp only [hnl', Bool.false_eq_true, if_false, Option.some_inj] at hres
    subst hres
    refine ⟨?_, ?_⟩
    · intro t ht
      simp only [List.mem_append, List.mem_map]
      exact Or.inl ⟨t, ht, rfl⟩
    · intro _ t ht
      simp only [List.mem_append, List.mem_map]
      by_cases hnr : hasNestedChoice r = true
      · obtain ⟨a, cl, cr, rfl⟩ := (hasNestedChoice_eq_true_iff r).mp hnr
        cases fuel with
        | zero => simp [derive] at hr
        | succ n =>
            simp only [derive, Option.some_inj] at hr
            subst hr
            simp only [List.mem_singleton] at ht
            subst ht
            simp [deriveNestedTransitions] at hdr
            subst hdr
            exact Or.inr ⟨⟨"initial", a, "prefix-action"⟩, by simp, rfl⟩
      · have hnr' : hasNestedChoice r = false := by
          cases h : hasNestedChoice r
          · rfl
          · exact absurd h hnr
        rw [deriveNested_eq_derive_of_not_nested fuel r false hnr', hr]
          at hdr
        have : rns = rts := by injection hdr with h; exact h.symm
        subst this
        exact Or.inr ⟨t, ht, rfl⟩

/-- C3 (amended) witness: `Parallel(Prefix("a", Stop), Prefix("b", Stop))`
interleaves both sides. -/
theorem parallel_rule_interleaving_amended_witness :
    (∀ t ∈ [(⟨"initial", "a", "next"⟩ : Transition)],
      (⟨"initial", t.action, "left-action"⟩ : Transition)
        ∈ [(⟨"initial", "a", "left-action"⟩ : Transition),
           ⟨"initial", "b", "right-action"⟩])
    ∧ (hasNestedChoice (prefixTerm "a" stop) = false →
        ∀ t ∈ [(⟨"initial", "b", "next"⟩ : Transition)],
          (⟨"initial", t.action, "right-action"⟩ : Transition)
            ∈ [(⟨"initial", "a", "left-action"⟩ : Transition),
               ⟨"initial", "b", "right-action"⟩]) :=
  parallel_rule_interleaving_amended 1 (prefixTerm "a" stop)
    (prefixTerm "b" stop)
    [⟨"initial", "a", "left-action"⟩, ⟨"initial", "b", "right-action"⟩]
    [⟨"initial", "a", "next"⟩] [⟨"initial", "b", "next"⟩] rfl rfl rfl

/-! ## Dot-split and dot-join round trip -/

/-- `splitDot` never returns an empty list of chunks. -/
theorem splitDot_ne_nil (cs : List Char) : splitDot cs ≠ [] := by
  induction cs with
  | nil => simp [splitDot]
  | cons c rest ih =>
      by_cases hc : c = '.'
      · simp [splitDot, hc]
      · rcases h : splitDot rest with _ | ⟨hd, tl⟩
        · exact absurd h ih
        · simp [splitDot, hc, h]

/-- Joining the dot-split of a character list recovers the list. -/
theorem joinDot_splitDot (cs : List Char) : joinDot (splitDot cs) = cs := by
  induction cs with
  | nil => rfl
  | cons c rest ih =>
      by_cases hc : c = '.'
      · rcases h : splitDot rest with _ | ⟨hd, tl⟩
        · exact absurd h (splitDot_ne_nil rest)
        · subst hc
          rw [h] at ih
          simp [splitDot, h, joinDot, ih]
      · rcases h : splitDot rest with _ | ⟨hd, tl⟩
        · exact absurd h (splitDot_ne_nil rest)
        · rw [h] at ih
          cases tl with
          | nil => simp [splitDot, hc, h, joinDot] at ih ⊢; simp [ih]
          | cons t2 ts2 =>
              simp [splitDot, hc, h, joinDot] at ih ⊢
              simp [ih]

/-- Joining the dot-split of a string recovers the string. -/
theorem joinDotStr_splitDotStr (s : String) :
    joinDotStr (splitDotStr s) = s := by
  simp only [joinDotStr, splitDotStr, List.map_map]
  have hmap : (String.data ∘ String.mk) = id := by
    funext cs
    rfl
  rw [hmap, List.map_id, joinDot_splitDot]

/-- Every trace string occurs among its own generated prefixes (as the
join of the full split). -/
theorem mem_generateTracePrefixes_self (s : String) :
    s ∈ generateTracePrefixes s := by
  unfold generateTracePrefixes
  have hlen : (splitDotStr s).length ≠ 0 := by
    simp only [splitDotStr, List.length_map]
    intro h
    exact splitDot_ne_nil s.data (List.length_eq_zero.mp h)
  refine List.mem_cons_of_mem _ ?_
  refine List.mem_map.mpr ⟨(splitDotStr s).length - 1, ?_, ?_⟩
  · exact List.mem_range.mpr (by omega)
  · have : (splitDotStr s).length - 1 + 1 = (splitDotStr s).length := by omega
    rw [this, List.take_length, joinDotStr_splitDotStr]

/-- A trace that is itself a member of a trace set is contained in it. -/
theorem isTraceContained_of_mem (trace : String) (traceSet : List String)
    (h : trace ∈ traceSet) : isTraceContained trace traceSet = true := by
  unfold isTraceContained
  exact List.any_eq_true.mpr
    ⟨trace, mem_generateTracePrefixes_self trace, decide_eq_true h⟩

/-- `traceSetsEqual` holds for sets of the same size whose first set is
(membership-wise) included in the second. -/
theorem traceSetsEqual_true (l1 l2 : List String)
    (hlen : l1.length = l2.length) (hsub : ∀ x ∈ l1, x ∈ l2) :
    traceSetsEqual l1 l2 = true := by
  unfold traceSetsEqual
  rw [if_neg (by omega)]
  exact List.all_eq_true.mpr
    (fun trace htrace => isTraceContained_of_mem trace l2 (hsub trace htrace))

/-! ## Membership structure of the trace exploration -/

/-- Membership in `addTrace`. -/
theorem mem_addTrace (traces : List String) (s x : String) :
    x ∈ addTrace traces s ↔ x ∈ traces ∨ x = s := by
  unfold addTrace
  by_cases h : s ∈ traces
  · simp only [h, if_true]
    constructor
    · exact Or.inl
    · rintro (hx | rfl)
      · exact hx
      · exact h
  · simp [h]

/-- `addTrace` preserves duplicate-freeness. -/
theorem nodup_addTrace (traces : List String) (s : String)
    (h : traces.Nodup) : (addTrace traces s).Nodup := by
  unfold addTrace
  by_cases hs : s ∈ traces
  · simpa [hs]
  · simp [hs, List.nodup_append, h]

/-- The trace accumulator of the exploration loop decomposes: a string is
collected from accumulator `tr` iff it is in `tr` or would be collected
from the empty accumulator (the loop's control flow never inspects the
accumulator). -/
theorem mem_exploreFold_decomp
    (child : String → List String → List String → List String)
    (hchild : ∀ c tr v x, x ∈ child c tr v ↔ x ∈ tr ∨ x ∈ child c [] v) :
    ∀ (pend : List Transition) (cur : String) (tr v : List String)
      (x : String),
      x ∈ exploreFold child pend cur tr v
        ↔ x ∈ tr ∨ x ∈ exploreFold child pend cur [] v := by
  intro pend
  induction pend with
  | nil => intro cur tr v x; simp [exploreFold]
  | cons t rest ih =>
      intro cur tr v x
      simp only [exploreFold]
      rw [ih, hchild, ih _ (child (newTrace cur t.action) [] v)]
      tauto

/-- Accumulator decomposition for `exploreGo`. -/
theorem mem_exploreGo_decomp (ts : List Transition) :
    ∀ (r : Nat) (cur : String) (tr v : List String) (x : String),
      x ∈ exploreGo ts r cur tr v
        ↔ x ∈ tr ∨ x ∈ exploreGo ts r cur [] v := by
  intro r
  induction r with
  | zero => intro cur tr v x; simp [exploreGo]
  | succ r ih =>
      intro cur tr v x
      by_cases hv : cur ∈ v
      · simp [exploreGo, hv]
      · simp only [exploreGo, hv, if_false]
        rw [mem_exploreFold_decomp _ ih,
          mem_exploreFold_decomp _ ih ts cur
            (if cur = "" then ([] : List String) else addTrace [] cur)]
        by_cases hc : cur = ""
        · simp [hc]
        · simp only [hc, if_false]
          rw [mem_addTrace, mem_addTrace]
          simp only [List.not_mem_nil, false_or]
          tauto

/-- The traces collected by the exploration loop are those already in the
accumulator plus, for some transition of the pending list, the traces the
child explorer collects from the extended trace. -/
theorem mem_exploreFold_iff
    (child : String → List String → List String → List String)
    (hchild : ∀ c tr v x, x ∈ child c tr v ↔ x ∈ tr ∨ x ∈ child c [] v) :
    ∀ (pend : List Transition) (cur : String) (tr v : List String)
      (x : String),
      x ∈ exploreFold child pend cur tr v
        ↔ x ∈ tr ∨ ∃ t ∈ pend, x ∈ child (newTrace cur t.action) [] v := by
  intro pend
  induction pend with
  | nil => intro cur tr v x; simp [exploreFold]
  | cons t rest ih =>
      intro cur tr v x
      simp only [exploreFold]
      rw [ih, hchild]
      simp only [List.mem_cons]
      constructor
      · rintro ((hx | hx) | ⟨t2, ht2, hx⟩)
        · exact Or.inl hx
        · exact Or.inr ⟨t, Or.inl rfl, hx⟩
        · exact Or.inr ⟨t2, Or.inr ht2, hx⟩
      · rintro (hx | ⟨t2, (rfl | ht2), hx⟩)
        · exact Or.inl (Or.inl hx)
        · exact Or.inl (Or.inr hx)
        · exact Or.inr ⟨t2, ht2, hx⟩

/-- Exploration collects the same traces from two transition lists that
offer the same set of actions (the loop inspects transitions only through
their actions, and the same list is re-derived at every level). -/
theorem mem_exploreGo_congr (ts1 ts2 : List Transition)
    (hact : ∀ a, (∃ t ∈ ts1, Transition.action t = a)
      ↔ ∃ t ∈ ts2, Transition.action t = a) :
    ∀ (r : Nat) (cur : String) (tr v : List String) (x : String),
      x ∈ exploreGo ts1 r cur tr v ↔ x ∈ exploreGo ts2 r cur tr v := by
  intro r
  induction r with
  | zero => intro cur tr v x; simp [exploreGo]
  | succ r ih =>
      intro cur tr v x
      by_cases hv : cur ∈ v
      · simp [exploreGo, hv]
      · simp only [exploreGo, hv, if_false]
        rw [mem_exploreFold_iff _ (mem_exploreGo_decomp ts1 r),
          mem_exploreFold_iff _ (mem_exploreGo_decomp ts2 r)]
        refine or_congr Iff.rfl ?_
        constructor
        · rintro ⟨t, ht, hx⟩
          obtain ⟨t2, ht2, ha⟩ := (hact t.action).mp ⟨t, ht, rfl⟩
          exact ⟨t2, ht2, by rw [ha]; exact (ih _ _ _ _).mp hx⟩
        · rintro ⟨t, ht, hx⟩
          obtain ⟨t2, ht2, ha⟩ := (hact t.action).mpr ⟨t, ht, rfl⟩
          exact ⟨t2, ht2, by rw [ha]; exact (ih _ _ _ _).mpr hx⟩

/-- The exploration loop preserves duplicate-freeness of the trace
accumulator. -/
theorem nodup_exploreFold
    (child : String → List String → List String → List String)
    (hchild : ∀ c tr v, tr.Nodup → (child c tr v).Nodup) :
    ∀ (pend : List Transition) (cur : String) (tr v : List String),
      tr.Nodup → (exploreFold child pend cur tr v).Nodup := by
  intro pend
  induction pend with
  | nil => intro cur tr v h; simpa [exploreFold]
  | cons t rest ih =>
      intro cur tr v h
      simp only [exploreFold]
      exact ih _ _ _ (hchild _ _ _ h)

/-- `exploreGo` preserves duplicate-freeness of the trace accumulator. -/
theorem nodup_exploreGo (ts : List Transition) :
    ∀ (r : Nat) (cur : String) (tr v : List String),
      tr.Nodup → (exploreGo ts r cur tr v).Nodup := by
  intro r
  induction r with
  | zero => intro cur tr v h; simpa [exploreGo]
  | succ r ih =>
      intro cur tr v h
      by_cases hv : cur ∈ v
      · simpa [exploreGo, hv]
      · simp only [exploreGo, hv, if_false]
        refine nodup_exploreFold _ ih ts cur _ _ ?_
        by_cases hc : cur = ""
        · simpa [hc]
        · simp only [hc, if_false]
          exact nodup_addTrace _ _ h

/-- The computed trace set is duplicate-free, so its length is the size
of the underlying JavaScript `Set<string>`. -/
theorem nodup_computeTracesFrom (ts : List Transition) :
    (computeTracesFrom ts).Nodup :=
  nodup_exploreGo ts MAX_TRACE_DEPTH "" [] [] List.nodup_nil

/-! ## Action-grouping map of the bisimulation comparison -/

/-- Keys of the action map after one `updateGroup` step: unchanged when
the action is present, extended at the end otherwise. -/
theorem keys_updateGroup (m : List (String × List Transition))
    (t : Transition) :
    (updateGroup m t).map Prod.fst
      = if t.action ∈ m.map Prod.fst then m.map Prod.fst
        else m.map Prod.fst ++ [t.action] := by
  induction m with
  | nil => simp [updateGroup]
  | cons p rest ih =>
      obtain ⟨a, ts⟩ := p
      by_cases ha : a = t.action
      · simp [updateGroup, ha]
      · simp only [updateGroup, ha, if_false, List.map_cons]
        rw [ih]
        by_cases hmem : t.action ∈ rest.map Prod.fst
        · simp [hmem, Ne.symm ha]
        · simp [hmem, Ne.symm ha]

/-- `updateGroup` preserves duplicate-freeness of the action keys. -/
theorem nodupKeys_updateGroup (m : List (String × List Transition))
    (t : Transition) (h : (m.map Prod.fst).Nodup) :
    ((updateGroup m t).map Prod.fst).Nodup := by
  rw [keys_updateGroup]
  by_cases hmem : t.action ∈ m.map Prod.fst
  · simpa [hmem]
  · simp [hmem, List.nodup_append, h]

/-- The action map built by `groupTransitionsByAction` has duplicate-free
keys. -/
theorem nodupKeys_groupTransitionsByAction (l : List Transition) :
    ((groupTransitionsByAction l).map Prod.fst).Nodup := by
  have hgen : ∀ (m : List (String × List Transition)),
      (m.map Prod.fst).Nodup → ((l.foldl updateGroup m).map Prod.fst).Nodup := by
    induction l with
    | nil => intro m h; simpa
    | cons t rest ih =>
        intro m h
        exact ih _ (nodupKeys_updateGroup m t h)
  exact hgen [] (by simp)

/-- In an association list with duplicate-free keys, looking up the key of
a member entry returns that entry's value. -/
theorem lookupStr_of_mem {α : Type} (m : List (String × α)) (a : String)
    (x : α) (hnd : (m.map Prod.fst).Nodup) (hmem : (a, x) ∈ m) :
    lookupStr m a = some x := by
  induction m with
  | nil => simp at hmem
  | cons p rest ih =>
      obtain ⟨b, y⟩ := p
      rcases List.mem_cons.mp hmem with heq | hrest
      · obtain ⟨rfl, rfl⟩ := Prod.mk.injEq .. ▸ heq
        · simp [lookupStr]
      · have hbne : b ≠ a := by
          intro hba
          subst hba
          exact (List.nodup_cons.mp hnd).1
            (List.mem_map.mpr ⟨(b, x), hrest, rfl⟩)
        simp only [lookupStr, hbne, if_false]
        exact ih (List.nodup_cons.mp hnd).2 hrest

/-- Comparing a transition list's action map with itself succeeds. -/
theorem advancedTransitionSetComparison_self (l : List Transition) :
    advancedTransitionSetComparison l l = true := by
  unfold advancedTransitionSetComparison
  rw [if_neg (by omega)]
  refine List.all_eq_true.mpr ?_
  intro p hp
  have := lookupStr_of_mem (groupTransitionsByAction l) p.1 p.2
    (nodupKeys_groupTransitionsByAction l) (by simpa using hp)
  simp [this]

/-! ## Fuel monotonicity of `derive` -/

/-- A derivation that succeeds with some fuel succeeds unchanged with one
more unit of fuel. -/
theorem derive_mono (n : Nat) :
    ∀ (t : ProcessTerm) (l : List Transition),
      derive n t = some l → derive (n + 1) t = some l := by
  induction n with
  | zero => intro t l h; simp [derive] at h
  | succ n ih =>
      intro t l h
      cases t with
      | stop => exact h
      | mockTerm id => exact h
      | prefixTerm a k => exact h
      | parallelTerm a b => exact h
      | choiceTerm a b =>
          rcases ha : derive n a with _ | la <;>
            rcases hb : derive n b with _ | lb <;>
              simp [derive, ha, hb] at h
          simp [derive, ih a la ha, ih b lb hb, h]
      | recursiveTerm x d => exact ih (unfoldRec x d) l h

/-! ## Claim theorems: reflexivity and choice idempotence -/

/-- C7: `checkEquivalence(T, T, kind)` returns `true` for each of the four
supported equivalence kinds, for every term whose derivation terminates
within the given fuel. -/
theorem checkEquivalence_reflexive (fuel : Nat) (t : ProcessTerm) (k : Nat)
    (l : List Transition) (hd : derive fuel t = some l) (hk : k < 4) :
    checkEquivalence fuel t t k = some (Except.ok true) := by
  have htrace : checkTraceEquivalence fuel t t = some true := by
    simp only [checkTraceEquivalence, hd]
    rw [traceSetsEqual_true _ _ rfl (fun x hx => hx)]
  interval_cases k
  · simp [checkEquivalence, htrace]
  · simp [checkEquivalence, checkBisimulationEquivalence, hd,
      advancedTransitionSetComparison_self]
  · simp [checkEquivalence, checkTestingEquivalence, htrace]
  · simp [checkEquivalence, checkFailuresEquivalence, htrace]

/-- C7 witness: `Stop` is equivalent to itself under all four kinds. -/
theorem checkEquivalence_reflexive_witness :
    checkEquivalence 1 stop stop 0 = some (Except.ok true)
    ∧ checkEquivalence 1 stop stop 1 = some (Except.ok true)
    ∧ checkEquivalence 1 stop stop 2 = some (Except.ok true)
    ∧ checkEquivalence 1 stop stop 3 = some (Except.ok true) :=
  ⟨checkEquivalence_reflexive 1 stop 0 [] rfl (by omega),
   checkEquivalence_reflexive 1 stop 1 [] rfl (by omega),
   checkEquivalence_reflexive 1 stop 2 [] rfl (by omega),
   checkEquivalence_reflexive 1 stop 3 [] rfl (by omega)⟩

/-- C8: `Choice(P, P)` has the same computed trace set as `P` (the same
strings, membership-wise), and the trace-equivalence check between the
two returns `true`. -/
theorem choice_idempotent_traces (P : ProcessTerm) (fuel : Nat)
    (l : List Transition) (hd : derive fuel P = some l) :
    (∀ x, x ∈ (computeTraces (fuel + 1) (choiceTerm P P)).getD []
        ↔ x ∈ (computeTraces (fuel + 1) P).getD [])
    ∧ checkEquivalence (fuel + 1) (choiceTerm P P) P EquivalenceType.TRACE
        = some (Except.ok true) := by
  have hP : derive (fuel + 1) P = some l := derive_mono fuel P l hd
  have hC : derive (fuel + 1) (choiceTerm P P) = some (l ++ l) := by
    simp [derive, hd]
  have hact : ∀ a, (∃ t ∈ l ++ l, Transition.action t = a)
      ↔ ∃ t ∈ l, Transition.action t = a := by
    intro a
    simp only [List.mem_append]
    constructor
    · rintro ⟨t, (ht | ht), ha⟩ <;> exact ⟨t, ht, ha⟩
    · rintro ⟨t, ht, ha⟩; exact ⟨t, Or.inl ht, ha⟩
  have hmem : ∀ x, x ∈ computeTracesFrom (l ++ l)
      ↔ x ∈ computeTracesFrom l :=
    fun x => mem_exploreGo_congr (l ++ l) l hact MAX_TRACE_DEPTH "" [] [] x
  have hperm : (computeTracesFrom (l ++ l)).Perm (computeTracesFrom l) :=
    (List.perm_ext_iff_of_nodup (nodup_computeTracesFrom _)
      (nodup_computeTracesFrom _)).mpr hmem
  constructor
  · intro x
    simp only [computeTraces, hC, hP, Option.map_some', Option.getD_some]
    exact hmem x
  · show checkEquivalence (fuel + 1) (choiceTerm P P) P 0
      = some (Except.ok true)
    simp only [checkEquivalence, checkTraceEquivalence, hC, hP]
    rw [traceSetsEqual_true _ _ hperm.length_eq (fun x hx => (hmem x).mp hx)]
    rfl

/-- C8 witness: `Choice(a.Stop, a.Stop)` against `a.Stop`. -/
theorem choice_idempotent_traces_witness :
    (∀ x, x ∈ (computeTraces 2 (choiceTerm (prefixTerm "a" stop)
          (prefixTerm "a" stop))).getD []
        ↔ x ∈ (computeTraces 2 (prefixTerm "a" stop)).getD [])
    ∧ checkEquivalence 2
        (choiceTerm (prefixTerm "a" stop) (prefixTerm "a" stop))
        (prefixTerm "a" stop) EquivalenceType.TRACE
        = some (Except.ok true) :=
  choice_idempotent_traces (prefixTerm "a" stop) 1
    [⟨"initial", "a", "next"⟩] rfl
